import Mathlib

set_option maxRecDepth 10000

/-!
Verification of the sorzun BIP32 hierarchical-deterministic key engine
(obsidian/deterministic.py together with the base58 codec) against its
design specification.  Python byte strings are modelled as lists of
naturals, machine integers as naturals with explicit bounds, fallible
code as Except values, and the external hashlib/hmac collaborators as
function parameters, exactly as the source imports them.
-/

namespace Sorzun

/-- Byte strings are lists of naturals; a well-formed byte string has every
entry below 256. -/
abbrev Bytes := List Nat

/-- Python exception kinds raised by the modelled code paths. -/
inductive Err where
  | protocolError (msg : String)
  | assertionError (msg : String)
  | valueError (msg : String)
  | overflowError
  | indexError
  deriving Repr, DecidableEq

/-- Every entry of a byte string is in byte range. -/
def IsBytes (l : Bytes) : Prop := ∀ x ∈ l, x < 256

instance (l : Bytes) : Decidable (IsBytes l) := List.decidableBAll _ l

/-- Big-endian value of a byte string, as in int.from_bytes(b, big). -/
def beToNat (l : Bytes) : Nat := l.foldl (fun a b => a * 256 + b) 0

/-- Fixed-width big-endian byte encoding of a natural: the digit list that
x.to_bytes(len, big) produces when x < 256 ^ len. -/
def beBytes (len x : Nat) : Bytes :=
  (List.range len).map (fun k => x / 256 ^ (len - 1 - k) % 256)

/-- int.to_bytes(x, len, big): OverflowError when the value does not fit. -/
def toBytesBE (x len : Nat) : Except Err Bytes :=
  if x < 256 ^ len then .ok (beBytes len x) else .error .overflowError

/-- Python slice l[-n:]: the last n entries (the whole list when shorter). -/
def lastN (n : Nat) (l : Bytes) : Bytes := l.drop (l.length - n)

/-- Python slice l[-m:-n] for m > n, with Python clamping of negative
start and stop positions; truncated Nat subtraction realizes the clamps. -/
def sliceLast (l : Bytes) (m n : Nat) : Bytes :=
  (l.drop (l.length - m)).take ((l.length - n) - (l.length - m))

/-- The external hashlib/hmac collaborators (spec section 2): the engine is
parametric in them, exactly as the source imports them. -/
structure Primitives where
  sha256 : Bytes → Bytes
  ripemd160 : Bytes → Bytes
  hmacSha512 : Bytes → Bytes → Bytes

/-- Real digests are fixed-length byte strings; theorems that depend on
digest shape take this as a hypothesis. -/
structure Primitives.Wf (p : Primitives) : Prop where
  sha256_len : ∀ m, (p.sha256 m).length = 32
  sha256_bytes : ∀ m, IsBytes (p.sha256 m)
  ripemd160_len : ∀ m, (p.ripemd160 m).length = 20
  ripemd160_bytes : ∀ m, IsBytes (p.ripemd160 m)
  hmacSha512_len : ∀ k m, (p.hmacSha512 k m).length = 64
  hmacSha512_bytes : ∀ k m, IsBytes (p.hmacSha512 k m)

/-- hash160 from deterministic.py: RIPEMD160 of the SHA256 of the message. -/
def hash160 (p : Primitives) (msg : Bytes) : Bytes := p.ripemd160 (p.sha256 msg)

/-- Order of the secp256k1 group: the constant N of the external ecc
module. -/
def secpN : Nat :=
  0xFFFFFFFFFFFFFFFFFFFFFFFFFFFFFFFEBAAEDCE6AF48A03BBFD25E8CD0364141

instance : NeZero secpN := ⟨by decide⟩

/-- Modelled from the spec: the external ecc module (absent from the
sources; spec section 2, GroupField) provides a curve point type with
addition, scalar multiplication, a generator G and a prime order N.  The
cyclic group of order N generated by G is represented as ZMod N with G
identified with 1. -/
abbrev Point := ZMod secpN

/-- Modelled from the spec: the generator point G of the ecc module. -/
def G : Point := 1

/-- Modelled from the spec: scalar multiplication P * k of the ecc module. -/
def ptMul (P : Point) (k : Nat) : Point := k • P

/-- Modelled from the spec: the 33-byte compressed-point serialization
bytes(P) of the ecc module; one SEC1-style prefix byte then the 32-byte
big-endian coordinate, injective so that deserialization inverts it. -/
def pointToBytes (P : Point) : Bytes := 2 :: beBytes 32 P.val

/-- Modelled from the spec: Point.from_bytes of the ecc module; fails on
byte strings that are not the serialization of a valid point. -/
def pointFromBytes (l : Bytes) : Except Err Point :=
  if l.length = 33 ∧ l.head? = some 2 ∧ beToNat (l.drop 1) < secpN then
    .ok ((beToNat (l.drop 1) : Nat) : Point)
  else .error (.valueError "invalid point bytes")

/-- Extended public key (class XPubKey): an ecc point and a chaincode,
a namedtuple of the two. -/
structure XPubKey where
  keydata : Point
  chaincode : Bytes
  deriving DecidableEq

/-- XPubKey.__new__: an omitted chaincode defaults to urandom(32); the OS
randomness source is an oracle parameter. -/
def XPubKey.make (urandom : Nat → Bytes) (k : Point) (cc : Option Bytes) :
    XPubKey :=
  { keydata := k, chaincode := cc.getD (urandom 32) }

/-- XPubKey.pubkey property. -/
def XPubKey.pubkey (x : XPubKey) : Point := x.keydata

/-- XPubKey.id property: HASH160 of the compressed pubkey serialization. -/
def XPubKey.keyid (p : Primitives) (x : XPubKey) : Bytes :=
  hash160 p (pointToBytes x.pubkey)

/-- XPubKey.ckd: non-hardened public child-key derivation; hardened indices
are rejected with a ProtocolError before anything is computed. -/
def XPubKey.ckd (p : Primitives) (x : XPubKey) (i : Nat) :
    Except Err XPubKey :=
  if ¬ i < 0x80000000 then
    .error (.protocolError
      "It is disallowed to derive a hardend subkey from public node")
  else do
    let ibytes ← toBytesBE i 4
    let pl := pointToBytes x.pubkey ++ ibytes
    let I := p.hmacSha512 x.chaincode pl
    let IL := I.take 32
    let IR := lastN 32 I
    let k := beToNat IL
    pure ⟨ptMul G k + x.keydata, IR⟩

/-- Extended private key (class XPrivKey): the keydata is the scalar. -/
structure XPrivKey where
  keydata : Nat
  chaincode : Bytes
  deriving DecidableEq

/-- XPrivKey.pubkey property: G * keydata. -/
def XPrivKey.pubkey (x : XPrivKey) : Point := ptMul G x.keydata

/-- XPrivKey.__bytes__: the byte 0x00 followed by the 32-byte big-endian
scalar. -/
def XPrivKey.bytes (x : XPrivKey) : Except Err Bytes := do
  pure (0 :: (← toBytesBE x.keydata 32))

/-- XPrivKey.ckd: private child-key derivation.  The child scalar is
(IL + parent) mod N with no further checks: neither IL ≥ N nor a zero
child scalar is rejected. -/
def XPrivKey.ckd (p : Primitives) (x : XPrivKey) (i : Nat) :
    Except Err XPrivKey := do
  let plbe ← if i ≥ 0x80000000 then x.bytes
             else pure (pointToBytes x.pubkey)
  let ibytes ← toBytesBE i 4
  let I := p.hmacSha512 x.chaincode (plbe ++ ibytes)
  let IL := I.take 32
  let IR := lastN 32 I
  let k := (beToNat IL + x.keydata) % secpN
  pure ⟨k, IR⟩

/-- XPrivKey.id, inherited from XPubKey with the pubkey property overridden
to G * keydata. -/
def XPrivKey.keyid (p : Primitives) (x : XPrivKey) : Bytes :=
  hash160 p (pointToBytes x.pubkey)

/-- The base58 alphabet (base58.py ALPHABET). -/
def ALPHABET : List Char :=
  "123456789ABCDEFGHJKLMNPQRSTUVWXYZabcdefghijkmnopqrstuvwxyz".toList

/-- Base58 digits of i, least significant first: the while loop of b58enc.
Structural fuel replaces the while loop; the value itself bounds the number
of iterations, since the value strictly shrinks at each division by 58. -/
def natToB58RevFuel : Nat → Nat → List Nat
  | 0, _ => []
  | fuel + 1, i => if i = 0 then [] else i % 58 :: natToB58RevFuel fuel (i / 58)

/-- Base58 digit list of i, least significant digit first. -/
def natToB58Rev (i : Nat) : List Nat := natToB58RevFuel i i

/-- b58enc from base58.py; check selects base58check, which appends the
first four bytes of the double-SHA256 digest before encoding.  The digits
accumulate least significant first and the final reversal also moves the
leading-zero markers to the front, as in the source. -/
def b58enc (p : Primitives) (b : Bytes) (check : Bool) : List Char :=
  let b := if check then b ++ (p.sha256 (p.sha256 b)).take 4 else b
  let i := beToNat b
  let leadingNulls := (b.takeWhile (fun x => x == 0)).length
  ((natToB58Rev i).map (fun d => ALPHABET.getD d ' ') ++
    List.replicate leadingNulls '1').reverse

/-- ALPHABET.index(c): position of a character in the alphabet, a
ValueError for characters outside it. -/
def alphaIndex (c : Char) : Except Err Nat :=
  match ALPHABET.findIdx? (fun a => a == c) with
  | some n => .ok n
  | none => .error (.valueError "substring not found")

/-- len(s) - len(s.lstrip(a)): the number of leading occurrences of a. -/
def leadingCount (a : Char) (s : List Char) : Nat :=
  (s.takeWhile (fun c => c == a)).length

/-- Python int.bit_length, by structural fuel (the value bounds the number
of halvings). -/
def bitLengthFuel : Nat → Nat → Nat
  | 0, _ => 0
  | fuel + 1, n => if n = 0 then 0 else bitLengthFuel fuel (n / 2) + 1

/-- Python int.bit_length: the number of binary digits, 0 for 0. -/
def bitLength (n : Nat) : Nat := bitLengthFuel n n

/-- b58dec from base58.py: strips trailing newlines, folds the digit values,
reconstructs the minimal big-endian byte string behind the leading-zero
markers; with check set, it verifies and strips the 4-byte double-SHA256
checksum, an AssertionError on mismatch. -/
def b58dec (p : Primitives) (s : List Char) (check : Bool) :
    Except Err Bytes := do
  let i ← ((s.reverse.dropWhile (fun c => c == Char.ofNat 10)).reverse).foldlM
    (fun a c => do pure (a * 58 + (← alphaIndex c))) 0
  let leadingOnes := leadingCount '1' s
  let n := (bitLength i + 7) / 8
  let pl := List.replicate leadingOnes 0 ++ beBytes n i
  if check then
    let pl2 := pl.take (pl.length - 4)
    let cs := lastN 4 pl
    if (p.sha256 (p.sha256 pl2)).take 4 = cs then pure pl2
    else .error (.assertionError "Checksum Failed")
  else pure pl

/-- BIP32 public node (class PubBIP32Node): an XPubKey with tree-position
data. -/
structure PubBIP32Node where
  keydata : Point
  chaincode : Bytes
  depth : Nat
  parent_fingerprint : Bytes
  index : Nat
  deriving DecidableEq

/-- Bitcoin xpub version bytes. -/
def PubBIP32Node.vbytes : Bytes := [0x04, 0x88, 0xB2, 0x1E]

/-- The XPubKey part of a public node (the first two namedtuple fields). -/
def PubBIP32Node.toXPub (n : PubBIP32Node) : XPubKey :=
  ⟨n.keydata, n.chaincode⟩

/-- Key id of a public node: HASH160 of the compressed pubkey bytes. -/
def PubBIP32Node.keyid (p : Primitives) (n : PubBIP32Node) : Bytes :=
  hash160 p (pointToBytes n.keydata)

/-- PubBIP32Node.__bytes__: the 78-byte BIP32 extended-key serialization. -/
def PubBIP32Node.bytes (n : PubBIP32Node) : Except Err Bytes := do
  let depth ← toBytesBE n.depth 1
  let chnum ← toBytesBE n.index 4
  pure (PubBIP32Node.vbytes ++ depth ++ n.parent_fingerprint ++ chnum ++
    n.chaincode ++ pointToBytes n.keydata)

/-- PubBIP32Node.ckd: XPubKey.ckd plus tree bookkeeping: depth + 1, parent
fingerprint = first four bytes of this node's key id, child index = i. -/
def PubBIP32Node.ckd (p : Primitives) (n : PubBIP32Node) (i : Nat) :
    Except Err PubBIP32Node := do
  let xkey ← XPubKey.ckd p n.toXPub i
  pure ⟨xkey.keydata, xkey.chaincode, n.depth + 1,
    (PubBIP32Node.keyid p n).take 4, i⟩

/-- PubBIP32Node.xpub property: base58check of the serialization. -/
def PubBIP32Node.xpub (p : Primitives) (n : PubBIP32Node) :
    Except Err (List Char) := do
  pure (b58enc p (← n.bytes) true)

/-- BIP32 private node (class PrivBIP32Node). -/
structure PrivBIP32Node where
  keydata : Nat
  chaincode : Bytes
  depth : Nat
  parent_fingerprint : Bytes
  index : Nat
  deriving DecidableEq

/-- Bitcoin xprv version bytes. -/
def PrivBIP32Node.vbytes : Bytes := [0x04, 0x88, 0xAD, 0xE4]

/-- The XPrivKey part of a private node. -/
def PrivBIP32Node.toXPriv (n : PrivBIP32Node) : XPrivKey :=
  ⟨n.keydata, n.chaincode⟩

/-- pubkey property of a private node: G * keydata. -/
def PrivBIP32Node.pubkey (n : PrivBIP32Node) : Point := ptMul G n.keydata

/-- Key id of a private node: HASH160 of the derived compressed pubkey. -/
def PrivBIP32Node.keyid (p : Primitives) (n : PrivBIP32Node) : Bytes :=
  hash160 p (pointToBytes (PrivBIP32Node.pubkey n))

/-- PrivBIP32Node.__bytes__: the node serialization with the private
keydata bytes 0x00 ++ be256(scalar) supplied by XPrivKey.__bytes__. -/
def PrivBIP32Node.bytes (n : PrivBIP32Node) : Except Err Bytes := do
  let depth ← toBytesBE n.depth 1
  let chnum ← toBytesBE n.index 4
  let kb ← toBytesBE n.keydata 32
  pure (PrivBIP32Node.vbytes ++ depth ++ n.parent_fingerprint ++ chnum ++
    n.chaincode ++ (0 :: kb))

/-- PrivBIP32Node.ckd: XPrivKey.ckd (resolved through the MRO) plus the
same tree bookkeeping as PubBIP32Node.ckd. -/
def PrivBIP32Node.ckd (p : Primitives) (n : PrivBIP32Node) (i : Nat) :
    Except Err PrivBIP32Node := do
  let xkey ← XPrivKey.ckd p n.toXPriv i
  pure ⟨xkey.keydata, xkey.chaincode, n.depth + 1,
    (PrivBIP32Node.keyid p n).take 4, i⟩

/-- PrivBIP32Node.xpub: project to the public node, then its xpub string
(property xpub builds PubBIP32Node(self.pubkey, *self[1:])). -/
def PrivBIP32Node.toPub (n : PrivBIP32Node) : PubBIP32Node :=
  ⟨PrivBIP32Node.pubkey n, n.chaincode, n.depth, n.parent_fingerprint,
    n.index⟩

/-- PrivBIP32Node.xprv property: base58check of the serialization. -/
def PrivBIP32Node.xprv (p : Primitives) (n : PrivBIP32Node) :
    Except Err (List Char) := do
  pure (b58enc p (← n.bytes) true)

/-- The two node variants node_from_str can return. -/
inductive BIP32Node where
  | priv (n : PrivBIP32Node)
  | pub (n : PubBIP32Node)
  deriving DecidableEq

/-- node_from_str from deterministic.py: base58check-decode, slice the
fields positionally (chaincode b[-65:-33], keydata b[-33:], depth b[4],
fingerprint b[5:9], index b[9:13]), then select the variant on the 4-byte
version prefix; unknown versions are a ValueError.  The private branch
asserts the first keydata byte is zero; the public branch delegates point
validity to the external deserializer.  No payload-length check exists. -/
def node_from_str (p : Primitives) (s : List Char) : Except Err BIP32Node := do
  let b ← b58dec p s true
  let c := sliceLast b 65 33
  let Kbytes := lastN 33 b
  let depth ← match b.get? 4 with
    | some d => pure d
    | none => Except.error Err.indexError
  let fingerp := (b.drop 5).take 4
  let index := beToNat ((b.drop 9).take 4)
  if b.take 4 = PrivBIP32Node.vbytes then
    match Kbytes.get? 0 with
    | none => .error .indexError
    | some k0 =>
      if k0 = 0 then
        pure (.priv ⟨beToNat Kbytes, c, depth, fingerp, index⟩)
      else .error (.assertionError "Kbytes starts with a nonzero byte")
  else if b.take 4 = PubBIP32Node.vbytes then do
    let K ← pointFromBytes Kbytes
    pure (.pub ⟨K, c, depth, fingerp, index⟩)
  else .error (.valueError "bad BIP32 node encoding")

/-- Python int() on the digit strings of derivation paths; sign, whitespace
and underscore forms never appear in the path grammar and are not
modelled. -/
def parseInt (x : List Char) : Except Err Nat :=
  if x ≠ [] ∧ x.all Char.isDigit then
    .ok (x.foldl (fun a c => a * 10 + (c.toNat - 48)) 0)
  else .error (.valueError "invalid literal for int")

/-- One path segment of derive:
int(x) if x[-1] != H else int(x[:-1]) + 0x80000000. -/
def parseSegment (x : List Char) : Except Err Nat :=
  match x.getLast? with
  | none => .error .indexError
  | some c =>
    if c ≠ 'H' then parseInt x
    else do pure ((← parseInt (x.take (x.length - 1))) + 0x80000000)

/-- XPubKey.derive: an empty path returns self unchanged, otherwise ckd is
folded over the slash-separated segments left to right. -/
def XPubKey.derive (p : Primitives) (x : XPubKey) (path : List Char) :
    Except Err XPubKey :=
  if path = [] then pure x
  else (path.splitOn '/').foldlM
    (fun key seg => do XPubKey.ckd p key (← parseSegment seg)) x

/-- derive as inherited by PrivBIP32Node: the same loop with ckd resolved
to PrivBIP32Node.ckd by the MRO. -/
def PrivBIP32Node.derive (p : Primitives) (n : PrivBIP32Node)
    (path : List Char) : Except Err PrivBIP32Node :=
  if path = [] then pure n
  else (path.splitOn '/').foldlM
    (fun key seg => do PrivBIP32Node.ckd p key (← parseSegment seg)) n

/-- Well-formed private node: every field within its wire-format range. -/
def PrivBIP32Node.Wf (n : PrivBIP32Node) : Prop :=
  n.depth < 256 ∧ n.index < 2 ^ 32 ∧
  n.chaincode.length = 32 ∧ IsBytes n.chaincode ∧
  n.parent_fingerprint.length = 4 ∧ IsBytes n.parent_fingerprint ∧
  n.keydata < 2 ^ 256

/-- Well-formed public node: every field within its wire-format range. -/
def PubBIP32Node.Wf (n : PubBIP32Node) : Prop :=
  n.depth < 256 ∧ n.index < 2 ^ 32 ∧
  n.chaincode.length = 32 ∧ IsBytes n.chaincode ∧
  n.parent_fingerprint.length = 4 ∧ IsBytes n.parent_fingerprint

instance (n : PrivBIP32Node) : Decidable (PrivBIP32Node.Wf n) := by
  unfold PrivBIP32Node.Wf
  infer_instance

instance (n : PubBIP32Node) : Decidable (PubBIP32Node.Wf n) := by
  unfold PubBIP32Node.Wf
  infer_instance

/-- Fixed hash-primitive stand-in used to instantiate witnesses: every
digest is the all-zero string of the right length. -/
def prims0 : Primitives :=
  ⟨fun _ => List.replicate 32 0, fun _ => List.replicate 20 0,
   fun _ _ => List.replicate 64 0⟩

instance {ε α : Type} [DecidableEq ε] [DecidableEq α] :
    DecidableEq (Except ε α) := fun a b =>
  match a, b with
  | .ok x, .ok y =>
    if h : x = y then .isTrue (by rw [h]) else .isFalse (by simp [h])
  | .error x, .error y =>
    if h : x = y then .isTrue (by rw [h]) else .isFalse (by simp [h])
  | .ok _, .error _ => .isFalse (by simp)
  | .error _, .ok _ => .isFalse (by simp)

/-! ### Arithmetic facts about the byte and digit codecs -/

theorem beToNat_nil : beToNat [] = 0 := rfl

theorem foldl_byte_base (l : Bytes) (a : Nat) :
    l.foldl (fun a b => a * 256 + b) a = a * 256 ^ l.length + beToNat l := by
  induction l generalizing a with
  | nil => simp [beToNat]
  | cons b t ih =>
    have h0 : (0 : Nat) * 256 + b = b := by ring
    have hfold : beToNat (b :: t) = List.foldl (fun a b => a * 256 + b) b t := by
      show List.foldl (fun a b => a * 256 + b) (0 * 256 + b) t = _
      rw [h0]
    rw [List.foldl_cons, ih (a * 256 + b), hfold, ih b, List.length_cons]
    ring

theorem beToNat_cons (b : Nat) (t : Bytes) :
    beToNat (b :: t) = b * 256 ^ t.length + beToNat t := by
  show List.foldl _ (0 * 256 + b) t = _
  rw [show (0 : Nat) * 256 + b = b from by ring, foldl_byte_base]

theorem beToNat_append (l₁ l₂ : Bytes) :
    beToNat (l₁ ++ l₂) = beToNat l₁ * 256 ^ l₂.length + beToNat l₂ := by
  show List.foldl _ 0 (l₁ ++ l₂) = _
  rw [List.foldl_append, ← beToNat, foldl_byte_base]

theorem beToNat_lt (l : Bytes) (h : IsBytes l) : beToNat l < 256 ^ l.length := by
  induction l with
  | nil => simp [beToNat]
  | cons b t ih =>
    have hb : b < 256 := h b (List.mem_cons_self b t)
    have ht : beToNat t < 256 ^ t.length :=
      ih (fun x hx => h x (List.mem_cons_of_mem b hx))
    rw [beToNat_cons]
    calc b * 256 ^ t.length + beToNat t
        < b * 256 ^ t.length + 256 ^ t.length := by omega
      _ = (b + 1) * 256 ^ t.length := by ring
      _ ≤ 256 * 256 ^ t.length := by
          exact Nat.mul_le_mul_right _ (by omega)
      _ = 256 ^ (b :: t).length := by rw [List.length_cons]; ring

theorem beToNat_replicate_zero (k : Nat) :
    beToNat (List.replicate k 0) = 0 := by
  induction k with
  | zero => rfl
  | succ k ih => rw [List.replicate_succ, beToNat_cons, ih]; ring

theorem beBytes_length (len x : Nat) : (beBytes len x).length = len := by
  simp [beBytes]

theorem beBytes_isBytes (len x : Nat) : IsBytes (beBytes len x) := by
  intro y hy
  simp only [beBytes, List.mem_map] at hy
  obtain ⟨k, -, rfl⟩ := hy
  exact Nat.mod_lt _ (by norm_num)

theorem beBytes_succ (len x : Nat) :
    beBytes (len + 1) x = x / 256 ^ len % 256 :: beBytes len x := by
  simp only [beBytes, List.range_succ_eq_map, List.map_cons, List.map_map,
    List.cons.injEq]
  refine ⟨by norm_num, ?_⟩
  refine List.map_congr_left (fun k hk => ?_)
  simp only [Function.comp_apply, Nat.succ_eq_add_one]
  have he : (256 : Nat) ^ (len + 1 - 1 - (k + 1)) = 256 ^ (len - 1 - k) := by
    congr 1
    omega
  rw [he]

theorem beBytes_mod (len x : Nat) :
    beBytes len (x % 256 ^ len) = beBytes len x := by
  simp only [beBytes]
  refine List.map_congr_left (fun k hk => ?_)
  rw [List.mem_range] at hk
  have hsplit : (256 : Nat) ^ len = 256 ^ (len - 1 - k) * 256 ^ (len - (len - 1 - k)) := by
    rw [← pow_add]
    congr 1
    omega
  rw [hsplit, Nat.mod_mul_right_div_self]
  have hpos : 1 ≤ len - (len - 1 - k) := by omega
  have hdvd : (256 : Nat) ∣ 256 ^ (len - (len - 1 - k)) :=
    dvd_pow_self 256 (by omega)
  rw [Nat.mod_mod_of_dvd _ hdvd]

theorem beToNat_beBytes (len x : Nat) (h : x < 256 ^ len) :
    beToNat (beBytes len x) = x := by
  induction len generalizing x with
  | zero =>
    have : x = 0 := by simpa using h
    simp [this, beBytes, beToNat]
  | succ len ih =>
    rw [beBytes_succ, beToNat_cons, beBytes_length, ← beBytes_mod,
      ih _ (Nat.mod_lt _ (by positivity))]
    have hdivlt : x / 256 ^ len < 256 := by
      rw [Nat.div_lt_iff_lt_mul (by positivity)]
      calc x < 256 ^ (len + 1) := h
        _ = 256 * 256 ^ len := by ring
    rw [Nat.mod_eq_of_lt hdivlt, Nat.div_add_mod']

theorem beBytes_beToNat (l : Bytes) (h : IsBytes l) :
    beBytes l.length (beToNat l) = l := by
  induction l with
  | nil => rfl
  | cons b t ih =>
    have hb : b < 256 := h b (List.mem_cons_self b t)
    have ht : IsBytes t := fun x hx => h x (List.mem_cons_of_mem b hx)
    have htlt : beToNat t < 256 ^ t.length := beToNat_lt t ht
    rw [List.length_cons, beBytes_succ, beToNat_cons]
    have hdiv : (b * 256 ^ t.length + beToNat t) / 256 ^ t.length = b := by
      rw [Nat.add_comm,
        Nat.add_mul_div_right _ _ (by positivity : (0:Nat) < 256 ^ t.length),
        Nat.div_eq_of_lt htlt, Nat.zero_add]
    have hmod : (b * 256 ^ t.length + beToNat t) % 256 ^ t.length = beToNat t := by
      rw [Nat.mul_comm, Nat.mul_add_mod, Nat.mod_eq_of_lt htlt]
    rw [hdiv, Nat.mod_eq_of_lt hb, ← beBytes_mod, hmod, ih ht]

theorem bitLengthFuel_zero (fuel : Nat) : bitLengthFuel fuel 0 = 0 := by
  cases fuel <;> simp [bitLengthFuel]

theorem bitLengthFuel_bounds (fuel : Nat) :
    ∀ n, n ≤ fuel →
      n < 2 ^ bitLengthFuel fuel n ∧
      (n ≠ 0 → 2 ^ (bitLengthFuel fuel n - 1) ≤ n) := by
  induction fuel with
  | zero =>
    intro n hn
    have : n = 0 := Nat.le_zero.mp hn
    subst this
    exact ⟨by simp [bitLengthFuel], fun h => absurd rfl h⟩
  | succ fuel ih =>
    intro n hn
    by_cases h0 : n = 0
    · subst h0
      exact ⟨by simp [bitLengthFuel], fun h => absurd rfl h⟩
    · have hrec : bitLengthFuel (fuel + 1) n = bitLengthFuel fuel (n / 2) + 1 := by
        simp [bitLengthFuel, h0]
      have hle : n / 2 ≤ fuel := by omega
      obtain ⟨hub, hlb⟩ := ih (n / 2) hle
      constructor
      · rw [hrec, pow_succ]
        omega
      · intro _hne
        rw [hrec]
        by_cases h2 : n / 2 = 0
        · have : bitLengthFuel fuel (n / 2) = 0 := by rw [h2, bitLengthFuel_zero]
          rw [this]
          simpa using Nat.pos_of_ne_zero h0
        · have h1 : 1 ≤ bitLengthFuel fuel (n / 2) := by
            by_contra hc
            have : bitLengthFuel fuel (n / 2) = 0 := by omega
            rw [this] at hub
            omega
          have := hlb h2
          have hstep : 2 ^ (bitLengthFuel fuel (n / 2) + 1 - 1)
              = 2 * 2 ^ (bitLengthFuel fuel (n / 2) - 1) := by
            rw [Nat.add_sub_cancel, ← pow_succ']
            congr 1
            omega
          rw [hstep]
          omega

theorem bitLength_lt (n : Nat) : n < 2 ^ bitLength n :=
  (bitLengthFuel_bounds n n le_rfl).1

theorem bitLength_le (n : Nat) (h : n ≠ 0) : 2 ^ (bitLength n - 1) ≤ n :=
  (bitLengthFuel_bounds n n le_rfl).2 h

theorem bitLength_zero : bitLength 0 = 0 := bitLengthFuel_zero 0

/-- The minimal byte length ceil(bit_length / 8) recovers the exact length
of a byte string with a nonzero leading byte. -/
theorem byte_length_of_head_ne_zero (h : Nat) (t : Bytes)
    (hh : h ≠ 0) (hbytes : IsBytes (h :: t)) :
    (bitLength (beToNat (h :: t)) + 7) / 8 = t.length + 1 := by
  set i := beToNat (h :: t) with hi
  have hub : i < 2 ^ (8 * (t.length + 1)) := by
    have := beToNat_lt (h :: t) hbytes
    rwa [List.length_cons, show (256 : Nat) ^ (t.length + 1) = 2 ^ (8 * (t.length + 1)) from by
      rw [show (256 : Nat) = 2 ^ 8 from by norm_num, ← pow_mul]] at this
  have hlb : 2 ^ (8 * t.length) ≤ i := by
    rw [hi, beToNat_cons]
    calc 2 ^ (8 * t.length) = 1 * 256 ^ t.length := by
          rw [show (256 : Nat) = 2 ^ 8 from by norm_num, ← pow_mul]
          ring
      _ ≤ h * 256 ^ t.length := Nat.mul_le_mul_right _ (Nat.pos_of_ne_zero hh)
      _ ≤ h * 256 ^ t.length + beToNat t := Nat.le_add_right _ _
  have hne : i ≠ 0 := by
    have : (0 : Nat) < 2 ^ (8 * t.length) := Nat.pos_pow_of_pos _ (by norm_num)
    omega
  have h1 : 8 * t.length < bitLength i := by
    have := bitLength_lt i
    have hpow : 2 ^ (8 * t.length) < 2 ^ bitLength i := lt_of_le_of_lt hlb this
    exact (Nat.pow_lt_pow_iff_right (by norm_num)).mp hpow
  have h2 : bitLength i ≤ 8 * (t.length + 1) := by
    have := bitLength_le i hne
    have hpow : 2 ^ (bitLength i - 1) < 2 ^ (8 * (t.length + 1)) :=
      lt_of_le_of_lt this hub
    have := (Nat.pow_lt_pow_iff_right (by norm_num : (1:Nat) < 2)).mp hpow
    omega
  omega

/-- The base58 digit list of i, read most significant first, evaluates back
to i; every digit is below 58; and for nonzero i the most significant digit
(the last of the least-significant-first list) is nonzero. -/
theorem natToB58RevFuel_spec (fuel : Nat) :
    ∀ i, i ≤ fuel →
      ((natToB58RevFuel fuel i).reverse.foldl (fun a d => a * 58 + d) 0 = i) ∧
      (∀ d ∈ natToB58RevFuel fuel i, d < 58) ∧
      (∀ d, (natToB58RevFuel fuel i).getLast? = some d → d ≠ 0) := by
  induction fuel with
  | zero =>
    intro i hi
    have : i = 0 := Nat.le_zero.mp hi
    subst this
    refine ⟨rfl, by simp [natToB58RevFuel], by simp [natToB58RevFuel]⟩
  | succ fuel ih =>
    intro i hi
    by_cases h0 : i = 0
    · subst h0
      refine ⟨rfl, by simp [natToB58RevFuel], by simp [natToB58RevFuel]⟩
    · have hrec : natToB58RevFuel (fuel + 1) i
          = i % 58 :: natToB58RevFuel fuel (i / 58) := by
        simp [natToB58RevFuel, h0]
      have hle : i / 58 ≤ fuel := by omega
      obtain ⟨hval, hdig, hlast⟩ := ih (i / 58) hle
      refine ⟨?_, ?_, ?_⟩
      · rw [hrec, List.reverse_cons, List.foldl_append, hval]
        show i / 58 * 58 + i % 58 = i
        omega
      · intro d hd
        rw [hrec] at hd
        rcases List.mem_cons.mp hd with h | h
        · subst h
          exact Nat.mod_lt _ (by norm_num)
        · exact hdig d h
      · intro d hd
        rw [hrec] at hd
        by_cases hnil : natToB58RevFuel fuel (i / 58) = []
        · rw [hnil, List.getLast?_singleton] at hd
          have hd0 : i % 58 = d := by
            injection hd
          have hzero : i / 58 = 0 := by
            by_contra hc
            have h1 : 1 ≤ i / 58 := Nat.pos_of_ne_zero hc
            rw [hnil] at hval
            simp at hval
            omega
          omega
        · obtain ⟨x, xs, hx⟩ := List.exists_cons_of_ne_nil hnil
          rw [hx, List.getLast?_cons_cons] at hd
          rw [hx] at hlast
          exact hlast d hd

theorem natToB58Rev_val (i : Nat) :
    (natToB58Rev i).reverse.foldl (fun a d => a * 58 + d) 0 = i :=
  (natToB58RevFuel_spec i i le_rfl).1

theorem natToB58Rev_digits (i : Nat) : ∀ d ∈ natToB58Rev i, d < 58 :=
  (natToB58RevFuel_spec i i le_rfl).2.1

theorem natToB58Rev_msd (i : Nat) :
    ∀ d, (natToB58Rev i).getLast? = some d → d ≠ 0 :=
  (natToB58RevFuel_spec i i le_rfl).2.2

theorem natToB58Rev_nil_iff (i : Nat) : natToB58Rev i = [] ↔ i = 0 := by
  constructor
  · intro h
    have := natToB58Rev_val i
    rw [h] at this
    simpa using this.symm
  · intro h
    subst h
    rfl

/-! ### Character-level facts about the base58 alphabet -/

theorem alphaIndex_getD :
    ∀ d, d < 58 → alphaIndex (ALPHABET.getD d ' ') = Except.ok d := by decide

theorem getD_ne_one : ∀ d, d < 58 → 0 < d → ALPHABET.getD d ' ' ≠ '1' := by
  decide

theorem getD_ne_newline :
    ∀ d, d < 58 → ALPHABET.getD d ' ' ≠ Char.ofNat 10 := by decide

theorem foldlM_b58_ones (k : Nat) :
    List.foldlM (fun a c => do pure (a * 58 + (← alphaIndex c))) (0 : Nat)
      (List.replicate k '1') = Except.ok (0 : Nat) := by
  induction k with
  | zero => rfl
  | succ k ih =>
    rw [List.replicate_succ, List.foldlM_cons]
    have h1 : (do pure ((0 : Nat) * 58 + (← alphaIndex '1')) : Except Err Nat)
        = Except.ok 0 := by rfl
    rw [h1]
    exact ih

theorem foldlM_b58_digits (ds : List Nat) (hds : ∀ d ∈ ds, d < 58) (a : Nat) :
    List.foldlM (fun a c => do pure (a * 58 + (← alphaIndex c))) a
      (ds.map (fun d => ALPHABET.getD d ' ')) =
      Except.ok (ds.foldl (fun a d => a * 58 + d) a) := by
  induction ds generalizing a with
  | nil => rfl
  | cons d t ih =>
    rw [List.map_cons, List.foldlM_cons]
    have h1 : (do pure (a * 58 + (← alphaIndex (ALPHABET.getD d ' '))) :
        Except Err Nat) = Except.ok (a * 58 + d) := by
      rw [alphaIndex_getD d (hds d (List.mem_cons_self d t))]
      rfl
    rw [h1]
    show List.foldlM _ (a * 58 + d) _ = _
    rw [ih (fun x hx => hds x (List.mem_cons_of_mem d hx)) (a * 58 + d)]
    rfl

theorem dropWhile_forall_not {α : Type} (q : α → Bool) (l : List α)
    (h : ∀ c ∈ l, q c = false) : l.dropWhile q = l := by
  cases l with
  | nil => rfl
  | cons c t =>
    rw [List.dropWhile_cons, h c (List.mem_cons_self c t)]
    simp

theorem head?_dropWhile_false {α : Type} (q : α → Bool) (l : List α) :
    ∀ c, (l.dropWhile q).head? = some c → q c = false := by
  induction l with
  | nil => intro c hc; simp [List.dropWhile] at hc
  | cons a t ih =>
    intro c hc
    rw [List.dropWhile_cons] at hc
    by_cases hq : q a
    · rw [if_pos hq] at hc
      exact ih c hc
    · rw [if_neg hq] at hc
      simp only [List.head?_cons, Option.some.injEq] at hc
      subst hc
      simpa using hq

theorem leadingCount_nil (a : Char) : leadingCount a [] = 0 := rfl

theorem leadingCount_cons_self (a : Char) (l : List Char) :
    leadingCount a (a :: l) = leadingCount a l + 1 := by
  simp [leadingCount, List.takeWhile_cons]

theorem leadingCount_cons_ne (a c : Char) (l : List Char) (h : ¬ c = a) :
    leadingCount a (c :: l) = 0 := by
  simp [leadingCount, List.takeWhile_cons, h]

theorem leadingCount_replicate_append (a : Char) (k : Nat) (l : List Char) :
    leadingCount a (List.replicate k a ++ l) = k + leadingCount a l := by
  induction k with
  | zero => simp
  | succ k ih =>
    rw [List.replicate_succ, List.cons_append, leadingCount_cons_self, ih]
    omega

theorem takeWhile_zero_eq_replicate (b : Bytes) :
    b.takeWhile (fun x => x == 0)
      = List.replicate (b.takeWhile (fun x => x == 0)).length 0 := by
  rw [List.eq_replicate_length]
  intro x hx
  have := List.mem_takeWhile_imp hx
  simpa using this

/-- Decoding inverts encoding at the raw base58 level: for any well-formed
byte string, b58dec of b58enc recovers it exactly (no checksum handling). -/
theorem b58dec_false_of_enc (q p : Primitives) (w : Bytes) (hw : IsBytes w) :
    b58dec q (b58enc p w false) false = Except.ok w := by
  set lz := (w.takeWhile (fun x => x == 0)).length with hlz
  set r := w.dropWhile (fun x => x == 0) with hr
  have hdecomp : List.replicate lz 0 ++ r = w := by
    conv_rhs => rw [← List.takeWhile_append_dropWhile (p := fun x => x == 0) (l := w)]
    rw [hlz, hr, ← takeWhile_zero_eq_replicate]
  set i := beToNat w with hi
  set msb := (natToB58Rev i).reverse with hmsb
  have hdig : ∀ d ∈ msb, d < 58 := fun d hd =>
    natToB58Rev_digits i d (List.mem_reverse.mp hd)
  have henc : b58enc p w false
      = List.replicate lz '1' ++ msb.map (fun d => ALPHABET.getD d ' ') := by
    simp only [b58enc, Bool.false_eq_true, if_false, List.reverse_append,
      List.reverse_replicate, List.map_reverse, hmsb, ← hi, ← hlz]
  have hnl : ∀ c ∈ b58enc p w false, (c == Char.ofNat 10) = false := by
    rw [henc]
    intro c hc
    rcases List.mem_append.mp hc with h | h
    · have hc1 : c = '1' := List.eq_of_mem_replicate h
      subst hc1
      decide
    · rw [List.mem_map] at h
      obtain ⟨d, hd, rfl⟩ := h
      have := getD_ne_newline d (hdig d hd)
      simpa using this
  have hstrip : ((b58enc p w false).reverse.dropWhile
        (fun c => c == Char.ofNat 10)).reverse = b58enc p w false := by
    rw [dropWhile_forall_not _ _ (fun c hc => hnl c (List.mem_reverse.mp hc)),
      List.reverse_reverse]
  have hfold : List.foldlM (fun a c => do pure (a * 58 + (← alphaIndex c)))
      (0 : Nat) (b58enc p w false) = Except.ok i := by
    rw [henc, List.foldlM_append, foldlM_b58_ones]
    show List.foldlM _ (0 : Nat) (msb.map _) = Except.ok i
    rw [foldlM_b58_digits msb hdig 0]
    rw [hmsb, natToB58Rev_val]
  have hlead : leadingCount '1' (b58enc p w false) = lz := by
    rw [henc]
    by_cases hi0 : i = 0
    · have hnil : natToB58Rev i = [] := (natToB58Rev_nil_iff i).mpr hi0
      rw [hmsb, hnil]
      show leadingCount '1' (List.replicate lz '1' ++ []) = lz
      rw [leadingCount_replicate_append, leadingCount_nil]
      omega
    · have hne : msb ≠ [] := by
        rw [hmsb]
        intro hcon
        exact hi0 ((natToB58Rev_nil_iff i).mp (by simpa using hcon))
      obtain ⟨d, rest, hcons⟩ := List.exists_cons_of_ne_nil hne
      have hd0 : d ≠ 0 := by
        apply natToB58Rev_msd i
        rw [← List.head?_reverse, ← hmsb, hcons]
        rfl
      have hdlt : d < 58 := hdig d (by rw [hcons]; exact List.mem_cons_self d rest)
      rw [hcons, List.map_cons, leadingCount_replicate_append,
        leadingCount_cons_ne _ _ _ (getD_ne_one d hdlt (Nat.pos_of_ne_zero hd0))]
      omega
  have hrecon : List.replicate (leadingCount '1' (b58enc p w false)) 0
      ++ beBytes ((bitLength i + 7) / 8) i = w := by
    rw [hlead]
    rcases hrcases : r with _ | ⟨h0, t⟩
    · have hw0 : w = List.replicate lz 0 := by
        rw [← hdecomp, hrcases, List.append_nil]
      have hi0 : i = 0 := by rw [hi, hw0, beToNat_replicate_zero]
      rw [hi0, bitLength_zero]
      show List.replicate lz 0 ++ beBytes 0 0 = w
      rw [hw0]
      simp [beBytes]
    · have hh0 : h0 ≠ 0 := by
        have := head?_dropWhile_false (fun x => x == 0) w h0
          (by rw [← hr, hrcases]; rfl)
        simpa using this
      have hib : IsBytes (h0 :: t) := by
        intro x hx
        apply hw
        rw [← hdecomp, hrcases]
        exact List.mem_append_right _ hx
      have hieq : i = beToNat (h0 :: t) := by
        rw [hi, ← hdecomp, hrcases, beToNat_append, beToNat_replicate_zero]
        ring_nf
      have hlen8 : (bitLength i + 7) / 8 = t.length + 1 := by
        rw [hieq]
        exact byte_length_of_head_ne_zero h0 t hh0 hib
      rw [hlen8, hieq]
      have hback : beBytes (t.length + 1) (beToNat (h0 :: t)) = h0 :: t := by
        have := beBytes_beToNat (h0 :: t) hib
        simpa using this
      rw [hback, ← hrcases, hdecomp]
  have hopen : b58dec q (b58enc p w false) false
      = (do
          let v ← List.foldlM (fun a c => do pure (a * 58 + (← alphaIndex c)))
            (0 : Nat) (b58enc p w false)
          pure (List.replicate (leadingCount '1' (b58enc p w false)) 0
            ++ beBytes ((bitLength v + 7) / 8) v) : Except Err Bytes) := by
    unfold b58dec
    rw [hstrip]
    rfl
  rw [hopen, hfold]
  show Except.ok (List.replicate (leadingCount '1' (b58enc p w false)) 0
    ++ beBytes ((bitLength i + 7) / 8) i) = Except.ok w
  exact congrArg Except.ok hrecon

/-- b58dec in checksum mode, expressed through its raw-mode result: the
checksum step splits the reconstructed payload and verifies the digest. -/
theorem b58dec_true_eq (q : Primitives) (s : List Char) (pl : Bytes)
    (h : b58dec q s false = Except.ok pl) :
    b58dec q s true =
      (if (q.sha256 (q.sha256 (pl.take (pl.length - 4)))).take 4 = lastN 4 pl
       then Except.ok (pl.take (pl.length - 4))
       else Except.error (.assertionError "Checksum Failed")) := by
  unfold b58dec at h ⊢
  cases hfold : List.foldlM (fun a c => do pure (a * 58 + (← alphaIndex c)))
      (0 : Nat) ((s.reverse.dropWhile (fun c => c == Char.ofNat 10)).reverse) with
  | error e =>
    rw [hfold] at h
    exact absurd h (by intro hcon; exact Except.noConfusion hcon)
  | ok v =>
    rw [hfold] at h
    have hpl : List.replicate (leadingCount '1' s) 0
        ++ beBytes ((bitLength v + 7) / 8) v = pl := by
      have h2 : Except.ok (List.replicate (leadingCount '1' s) 0
          ++ beBytes ((bitLength v + 7) / 8) v) = Except.ok pl := h
      injection h2
    rw [← hpl]
    rfl

/-- Round trip of base58check: decoding an encoding recovers the payload,
provided the external SHA256 digest is well formed (so the appended
checksum consists of four genuine bytes). -/
theorem b58dec_b58enc_check (p : Primitives) (b : Bytes) (hb : IsBytes b)
    (hcs : IsBytes ((p.sha256 (p.sha256 b)).take 4))
    (hlen : ((p.sha256 (p.sha256 b)).take 4).length = 4) :
    b58dec p (b58enc p b true) true = Except.ok b := by
  set cs := (p.sha256 (p.sha256 b)).take 4 with hcsdef
  have henc : b58enc p b true = b58enc p (b ++ cs) false := rfl
  have hw : IsBytes (b ++ cs) := by
    intro x hx
    rcases List.mem_append.mp hx with h | h
    · exact hb x h
    · exact hcs x h
  have hfalse : b58dec p (b58enc p b true) false = Except.ok (b ++ cs) := by
    rw [henc]
    exact b58dec_false_of_enc p p (b ++ cs) hw
  rw [b58dec_true_eq p _ _ hfalse]
  have hlen2 : (b ++ cs).length - 4 = b.length := by
    rw [List.length_append, hlen]
    omega
  have htake : (b ++ cs).take ((b ++ cs).length - 4) = b := by
    rw [hlen2, List.take_left]
  have hlast : lastN 4 (b ++ cs) = cs := by
    unfold lastN
    rw [List.length_append, hlen]
    have : b.length + 4 - 4 = b.length := by omega
    rw [this, List.drop_left]
  rw [htake, hlast, hcsdef]
  simp

/-! ### Parsing the 78-byte serialized layout -/

theorem except_bind_ok {ε α β : Type} (a : α) (f : α → Except ε β) :
    (Except.ok a >>= f : Except ε β) = f a := rfl

theorem except_bind_error {ε α β : Type} (e : ε) (f : α → Except ε β) :
    ((Except.error e : Except ε α) >>= f : Except ε β) = Except.error e := rfl

theorem toBytesBE_ok (x len : Nat) (h : x < 256 ^ len) :
    toBytesBE x len = Except.ok (beBytes len x) := by
  unfold toBytesBE
  rw [if_pos h]

theorem beBytes_one (d : Nat) (h : d < 256) : beBytes 1 d = [d] := by
  have h1 : List.range 1 = [0] := rfl
  show List.map (fun k => d / 256 ^ (1 - 1 - k) % 256) (List.range 1) = [d]
  rw [h1]
  simp [Nat.mod_eq_of_lt h]

theorem drop_append_len (A B : Bytes) (n : Nat) (h : A.length = n) :
    (A ++ B).drop n = B := by rw [← h, List.drop_left]

theorem take_append_len (A B : Bytes) (n : Nat) (h : A.length = n) :
    (A ++ B).take n = A := by rw [← h, List.take_left]

theorem isBytes_append (A B : Bytes) (hA : IsBytes A) (hB : IsBytes B) :
    IsBytes (A ++ B) := by
  intro x hx
  rcases List.mem_append.mp hx with h | h
  · exact hA x h
  · exact hB x h

theorem isBytes_cons (b : Nat) (l : Bytes) (hb : b < 256) (hl : IsBytes l) :
    IsBytes (b :: l) := by
  intro x hx
  rcases List.mem_cons.mp hx with h | h
  · omega
  · exact hl x h

/-- Positional field extraction from the 78-byte BIP32 layout, exactly the
slices node_from_str takes. -/
theorem layout_fields (V D F CN CC KD : Bytes)
    (hV : V.length = 4) (hD : D.length = 1) (hF : F.length = 4)
    (hCN : CN.length = 4) (hCC : CC.length = 32) (hKD : KD.length = 33) :
    (V ++ D ++ F ++ CN ++ CC ++ KD).length = 78 ∧
    sliceLast (V ++ D ++ F ++ CN ++ CC ++ KD) 65 33 = CC ∧
    lastN 33 (V ++ D ++ F ++ CN ++ CC ++ KD) = KD ∧
    (V ++ D ++ F ++ CN ++ CC ++ KD).get? 4 = D.get? 0 ∧
    ((V ++ D ++ F ++ CN ++ CC ++ KD).drop 5).take 4 = F ∧
    ((V ++ D ++ F ++ CN ++ CC ++ KD).drop 9).take 4 = CN ∧
    (V ++ D ++ F ++ CN ++ CC ++ KD).take 4 = V := by
  have hassoc : V ++ D ++ F ++ CN ++ CC ++ KD
      = V ++ (D ++ (F ++ (CN ++ (CC ++ KD)))) := by
    simp [List.append_assoc]
  have hlen : (V ++ D ++ F ++ CN ++ CC ++ KD).length = 78 := by
    simp [hV, hD, hF, hCN, hCC, hKD]
  have h4 : (V ++ (D ++ (F ++ (CN ++ (CC ++ KD))))).drop 4
      = D ++ (F ++ (CN ++ (CC ++ KD))) := drop_append_len V _ 4 hV
  have h5 : (V ++ (D ++ (F ++ (CN ++ (CC ++ KD))))).drop 5
      = F ++ (CN ++ (CC ++ KD)) := by
    have hdd : (V ++ (D ++ (F ++ (CN ++ (CC ++ KD))))).drop 5
        = ((V ++ (D ++ (F ++ (CN ++ (CC ++ KD))))).drop 4).drop 1 := by
      rw [List.drop_drop]
    rw [hdd, h4]
    exact drop_append_len D _ 1 hD
  have h9 : (V ++ (D ++ (F ++ (CN ++ (CC ++ KD))))).drop 9
      = CN ++ (CC ++ KD) := by
    have hdd : (V ++ (D ++ (F ++ (CN ++ (CC ++ KD))))).drop 9
        = ((V ++ (D ++ (F ++ (CN ++ (CC ++ KD))))).drop 5).drop 4 := by
      rw [List.drop_drop]
    rw [hdd, h5]
    exact drop_append_len F _ 4 hF
  have h13 : (V ++ (D ++ (F ++ (CN ++ (CC ++ KD))))).drop 13
      = CC ++ KD := by
    have hdd : (V ++ (D ++ (F ++ (CN ++ (CC ++ KD))))).drop 13
        = ((V ++ (D ++ (F ++ (CN ++ (CC ++ KD))))).drop 9).drop 4 := by
      rw [List.drop_drop]
    rw [hdd, h9]
    exact drop_append_len CN _ 4 hCN
  have h45 : (V ++ (D ++ (F ++ (CN ++ (CC ++ KD))))).drop 45 = KD := by
    have hdd : (V ++ (D ++ (F ++ (CN ++ (CC ++ KD))))).drop 45
        = ((V ++ (D ++ (F ++ (CN ++ (CC ++ KD))))).drop 13).drop 32 := by
      rw [List.drop_drop]
    rw [hdd, h13]
    exact drop_append_len CC _ 32 hCC
  refine ⟨hlen, ?_, ?_, ?_, ?_, ?_, ?_⟩
  · unfold sliceLast
    rw [hlen, hassoc]
    norm_num
    rw [h13]
    exact take_append_len CC _ 32 hCC
  · unfold lastN
    rw [hlen, hassoc]
    norm_num
    exact h45
  · rw [hassoc, List.get?_append_right (by omega : V.length ≤ 4), hV]
    norm_num
    rw [List.getElem?_append_left (by omega : 0 < D.length)]
  · rw [hassoc, h5]
    exact take_append_len F _ 4 hF
  · rw [hassoc, h9]
    exact take_append_len CN _ 4 hCN
  · rw [hassoc]
    exact take_append_len V _ 4 hV

/-- The private-node serialization, written out with its field encodings. -/
theorem priv_bytes_eq (n : PrivBIP32Node) (wf : PrivBIP32Node.Wf n) :
    PrivBIP32Node.bytes n = Except.ok (PrivBIP32Node.vbytes
      ++ beBytes 1 n.depth ++ n.parent_fingerprint ++ beBytes 4 n.index
      ++ n.chaincode ++ (0 :: beBytes 32 n.keydata)) := by
  obtain ⟨hd, hidx, _, _, _, _, hk⟩ := wf
  have hd1 : n.depth < 256 ^ 1 := by simpa using hd
  have hidx4 : n.index < 256 ^ 4 := by
    have : (256 : Nat) ^ 4 = 2 ^ 32 := by norm_num
    omega
  have hk32 : n.keydata < 256 ^ 32 := by
    have : (256 : Nat) ^ 32 = 2 ^ 256 := by norm_num
    omega
  simp only [PrivBIP32Node.bytes, toBytesBE_ok _ 1 hd1, toBytesBE_ok _ 4 hidx4,
    toBytesBE_ok _ 32 hk32, except_bind_ok]
  rfl

/-- The public-node serialization, written out with its field encodings. -/
theorem pub_bytes_eq (n : PubBIP32Node) (wf : PubBIP32Node.Wf n) :
    PubBIP32Node.bytes n = Except.ok (PubBIP32Node.vbytes
      ++ beBytes 1 n.depth ++ n.parent_fingerprint ++ beBytes 4 n.index
      ++ n.chaincode ++ pointToBytes n.keydata) := by
  obtain ⟨hd, hidx, _, _, _, _⟩ := wf
  have hd1 : n.depth < 256 ^ 1 := by simpa using hd
  have hidx4 : n.index < 256 ^ 4 := by
    have : (256 : Nat) ^ 4 = 2 ^ 32 := by norm_num
    omega
  simp only [PubBIP32Node.bytes, toBytesBE_ok _ 1 hd1, toBytesBE_ok _ 4 hidx4,
    except_bind_ok]
  rfl

theorem except_pure_bind {ε α β : Type} (a : α) (f : α → Except ε β) :
    ((pure a : Except ε α) >>= f : Except ε β) = f a := rfl

theorem except_pure_eq_ok {ε α : Type} (a : α) :
    (pure a : Except ε α) = Except.ok a := rfl

/-- node_from_str inverts the private-node serialization. -/
theorem node_from_str_serialized_priv (q : Primitives) (s : List Char)
    (n : PrivBIP32Node) (wf : PrivBIP32Node.Wf n)
    (hdec : b58dec q s true = Except.ok (PrivBIP32Node.vbytes
      ++ beBytes 1 n.depth ++ n.parent_fingerprint ++ beBytes 4 n.index
      ++ n.chaincode ++ (0 :: beBytes 32 n.keydata))) :
    node_from_str q s = Except.ok (.priv n) := by
  obtain ⟨hd, hidx, hccl, hccb, hfpl, hfpb, hk⟩ := wf
  obtain ⟨hlen, hslice, hlast, hget, hfp, hcn, htake⟩ := layout_fields
    PrivBIP32Node.vbytes (beBytes 1 n.depth) n.parent_fingerprint
    (beBytes 4 n.index) n.chaincode (0 :: beBytes 32 n.keydata)
    rfl (beBytes_length 1 _) hfpl (beBytes_length 4 _) hccl
    (by simp [beBytes_length])
  have hdepth : (beBytes 1 n.depth).get? 0 = some n.depth := by
    rw [beBytes_one n.depth hd]
    rfl
  have hKval : beToNat (0 :: beBytes 32 n.keydata) = n.keydata := by
    rw [beToNat_cons, beToNat_beBytes 32 _ (by
      have h2 : (256 : Nat) ^ 32 = 2 ^ 256 := by norm_num
      omega)]
    simp
  have hidxval : beToNat (beBytes 4 n.index) = n.index := by
    apply beToNat_beBytes
    have h2 : (256 : Nat) ^ 4 = 2 ^ 32 := by norm_num
    omega
  simp only [node_from_str, hdec, except_bind_ok, except_pure_bind, hslice,
    hlast, hget, hdepth, hfp, hcn, htake, hKval, hidxval]
  rfl

/-- node_from_str inverts the public-node serialization. -/
theorem node_from_str_serialized_pub (q : Primitives) (s : List Char)
    (n : PubBIP32Node) (wf : PubBIP32Node.Wf n)
    (hdec : b58dec q s true = Except.ok (PubBIP32Node.vbytes
      ++ beBytes 1 n.depth ++ n.parent_fingerprint ++ beBytes 4 n.index
      ++ n.chaincode ++ pointToBytes n.keydata)) :
    node_from_str q s = Except.ok (.pub n) := by
  obtain ⟨hd, hidx, hccl, hccb, hfpl, hfpb⟩ := wf
  obtain ⟨hlen, hslice, hlast, hget, hfp, hcn, htake⟩ := layout_fields
    PubBIP32Node.vbytes (beBytes 1 n.depth) n.parent_fingerprint
    (beBytes 4 n.index) n.chaincode (pointToBytes n.keydata)
    rfl (beBytes_length 1 _) hfpl (beBytes_length 4 _) hccl
    (by simp [pointToBytes, beBytes_length])
  have hdepth : (beBytes 1 n.depth).get? 0 = some n.depth := by
    rw [beBytes_one n.depth hd]
    rfl
  have hidxval : beToNat (beBytes 4 n.index) = n.index := by
    apply beToNat_beBytes
    have h2 : (256 : Nat) ^ 4 = 2 ^ 32 := by norm_num
    omega
  have hpoint : pointFromBytes (pointToBytes n.keydata)
      = Except.ok n.keydata := by
    unfold pointFromBytes pointToBytes
    rw [if_pos ?hcond]
    case hcond =>
      refine ⟨by simp [beBytes_length], rfl, ?_⟩
      rw [List.drop_one, List.tail_cons,
        beToNat_beBytes 32 _ (lt_trans (ZMod.val_lt n.keydata) ?_)]
      · exact ZMod.val_lt n.keydata
      · decide
    · congr 1
      rw [List.drop_one, List.tail_cons,
        beToNat_beBytes 32 _ (lt_trans (ZMod.val_lt n.keydata) (by decide))]
      exact ZMod.natCast_zmod_val n.keydata
  simp only [node_from_str, hdec, except_bind_ok, except_pure_bind, hslice,
    hlast, hget, hdepth, hfp, hcn, htake, hidxval, hpoint]
  rfl

/-! ### Witness fixtures -/

theorem prims0_wf : prims0.Wf where
  sha256_len := fun _ => by simp [prims0]
  sha256_bytes := fun m x hx => by
    simp [prims0, List.mem_replicate] at hx
    omega
  ripemd160_len := fun _ => by simp [prims0]
  ripemd160_bytes := fun m x hx => by
    simp [prims0, List.mem_replicate] at hx
    omega
  hmacSha512_len := fun _ _ => by simp [prims0]
  hmacSha512_bytes := fun k m x hx => by
    simp [prims0, List.mem_replicate] at hx
    omega

/-- Hash oracle whose HMAC output is all 0xFF bytes, so IL ≥ N. -/
def primsFF : Primitives :=
  ⟨fun _ => List.replicate 32 0, fun _ => List.replicate 20 0,
   fun _ _ => List.replicate 64 255⟩

/-- Hash oracle whose HMAC output has IL = N - 1, so a parent scalar of 1
yields child scalar 0. -/
def primsZ : Primitives :=
  ⟨fun _ => List.replicate 32 0, fun _ => List.replicate 20 0,
   fun _ _ => beBytes 32 (secpN - 1) ++ List.replicate 32 7⟩

def nPriv0 : PrivBIP32Node := ⟨1, List.replicate 32 0, 0, List.replicate 4 0, 0⟩

def nPub0 : PubBIP32Node := ⟨1, List.replicate 32 0, 0, List.replicate 4 0, 0⟩

def nDepth255 : PrivBIP32Node :=
  ⟨1, List.replicate 32 0, 255, List.replicate 4 0, 0⟩

def mDepth255 : PubBIP32Node :=
  ⟨1, List.replicate 32 0, 255, List.replicate 4 0, 0⟩

/-- 79-byte payload with the xprv version prefix: longer than the 78-byte
format, yet parsed without complaint. -/
def payload79 : Bytes := PrivBIP32Node.vbytes ++ List.replicate 75 0

/-! ### Claim theorems -/

/-- C1: hardened derivation (index ≥ 0x80000000) from a public-only key —
an XPubKey or a PubBIP32Node — always fails with the ProtocolError raised
by XPubKey.ckd before anything is computed; variant preservation of the
error through PubBIP32Node.ckd holds because its derivation starts by
delegating to XPubKey.ckd. -/
theorem hardened_public_ckd_protocol_error (p : Primitives) (x : XPubKey)
    (m : PubBIP32Node) (i : Nat) (h : 0x80000000 ≤ i) :
    XPubKey.ckd p x i = Except.error (Err.protocolError
      "It is disallowed to derive a hardend subkey from public node") ∧
    PubBIP32Node.ckd p m i = Except.error (Err.protocolError
      "It is disallowed to derive a hardend subkey from public node") := by
  have herr : ∀ y : XPubKey, XPubKey.ckd p y i
      = Except.error (Err.protocolError
        "It is disallowed to derive a hardend subkey from public node") := by
    intro y
    unfold XPubKey.ckd
    rw [if_pos (by omega)]
  refine ⟨herr x, ?_⟩
  unfold PubBIP32Node.ckd
  rw [herr m.toXPub, except_bind_error]

theorem hardened_public_ckd_protocol_error_witness :
    XPubKey.ckd prims0 ⟨1, List.replicate 32 0⟩ 0x80000000
      = Except.error (Err.protocolError
        "It is disallowed to derive a hardend subkey from public node") ∧
    PubBIP32Node.ckd prims0 nPub0 0x80000000
      = Except.error (Err.protocolError
        "It is disallowed to derive a hardend subkey from public node") :=
  hardened_public_ckd_protocol_error prims0 ⟨1, List.replicate 32 0⟩ nPub0
    0x80000000 (by decide)

/-- C2 counterexample: private CKD has no overflow check.  With an HMAC
oracle returning all 0xFF bytes the intermediate IL exceeds the group
order N, yet ckd succeeds; with an oracle returning IL = N - 1 and parent
scalar 1 the child scalar is exactly 0, yet ckd succeeds and hands the
degenerate scalar out. -/
theorem xprivkey_ckd_no_overflow_check :
    (secpN ≤ beToNat (List.replicate 32 255) ∧
     XPrivKey.ckd primsFF ⟨1, List.replicate 32 0⟩ 0
       = Except.ok ⟨(beToNat (List.replicate 32 255) + 1) % secpN,
           List.replicate 32 255⟩) ∧
    XPrivKey.ckd primsZ ⟨1, List.replicate 32 0⟩ 0
      = Except.ok ⟨0, List.replicate 32 7⟩ := by
  refine ⟨⟨by decide, by decide⟩, by decide⟩

/-- C2 (amended): for every in-range index and scalar, private CKD returns
ok with child scalar (IL + parent) mod N unconditionally; no IL ≥ N check
and no zero-scalar check exists, so no DerivationOverflow-style error is
ever raised on this path. -/
theorem xprivkey_ckd_unchecked (p : Primitives) (x : XPrivKey) (i : Nat)
    (hi : i < 2 ^ 32) (hk : x.keydata < 2 ^ 256) :
    XPrivKey.ckd p x i = Except.ok
      ⟨(beToNat ((p.hmacSha512 x.chaincode
          ((if i ≥ 0x80000000 then 0 :: beBytes 32 x.keydata
            else pointToBytes x.pubkey) ++ beBytes 4 i)).take 32)
          + x.keydata) % secpN,
        lastN 32 (p.hmacSha512 x.chaincode
          ((if i ≥ 0x80000000 then 0 :: beBytes 32 x.keydata
            else pointToBytes x.pubkey) ++ beBytes 4 i))⟩ := by
  have hi4 : i < 256 ^ 4 := by
    have h2 : (256 : Nat) ^ 4 = 2 ^ 32 := by norm_num
    omega
  have hk32 : x.keydata < 256 ^ 32 := by
    have h2 : (256 : Nat) ^ 32 = 2 ^ 256 := by norm_num
    omega
  have hbytes : XPrivKey.bytes x = Except.ok (0 :: beBytes 32 x.keydata) := by
    unfold XPrivKey.bytes
    rw [toBytesBE_ok _ 32 hk32]
    rfl
  unfold XPrivKey.ckd
  by_cases hh : i ≥ 0x80000000
  · rw [if_pos hh, if_pos hh, hbytes, except_bind_ok, toBytesBE_ok _ 4 hi4]
    rfl
  · rw [if_neg hh, if_neg hh, except_pure_bind, toBytesBE_ok _ 4 hi4]
    rfl

theorem xprivkey_ckd_unchecked_witness :
    XPrivKey.ckd prims0 ⟨1, List.replicate 32 0⟩ 0
      = Except.ok ⟨1, List.replicate 32 0⟩ := by
  have h := xprivkey_ckd_unchecked prims0 ⟨1, List.replicate 32 0⟩ 0
    (by decide) (by decide)
  rw [h]
  rfl

/-- C3: derive_child adds one to depth, sets the parent fingerprint to the
first four bytes of HASH160 of the parent's compressed public key, and
records the requested child index; the key variant is preserved because
PrivBIP32Node.ckd returns a PrivBIP32Node and PubBIP32Node.ckd a
PubBIP32Node by type. -/
theorem derive_child_metadata (p : Primitives) (n : PrivBIP32Node)
    (m : PubBIP32Node) (i : Nat) :
    (∀ c, PrivBIP32Node.ckd p n i = Except.ok c →
      c.depth = n.depth + 1 ∧
      c.parent_fingerprint
        = (hash160 p (pointToBytes (PrivBIP32Node.pubkey n))).take 4 ∧
      c.index = i) ∧
    (∀ c, PubBIP32Node.ckd p m i = Except.ok c →
      c.depth = m.depth + 1 ∧
      c.parent_fingerprint = (hash160 p (pointToBytes m.keydata)).take 4 ∧
      c.index = i) := by
  constructor
  · intro c hc
    unfold PrivBIP32Node.ckd at hc
    cases hx : XPrivKey.ckd p n.toXPriv i with
    | error e =>
      rw [hx, except_bind_error] at hc
      exact absurd hc (fun hcon => Except.noConfusion hcon)
    | ok xk =>
      rw [hx, except_bind_ok] at hc
      have h2 : Except.ok (⟨xk.keydata, xk.chaincode, n.depth + 1,
          (PrivBIP32Node.keyid p n).take 4, i⟩ : PrivBIP32Node)
          = Except.ok c := hc
      injection h2 with h3
      rw [← h3]
      exact ⟨rfl, rfl, rfl⟩
  · intro c hc
    unfold PubBIP32Node.ckd at hc
    cases hx : XPubKey.ckd p m.toXPub i with
    | error e =>
      rw [hx, except_bind_error] at hc
      exact absurd hc (fun hcon => Except.noConfusion hcon)
    | ok xk =>
      rw [hx, except_bind_ok] at hc
      have h2 : Except.ok (⟨xk.keydata, xk.chaincode, m.depth + 1,
          (PubBIP32Node.keyid p m).take 4, i⟩ : PubBIP32Node)
          = Except.ok c := hc
      injection h2 with h3
      rw [← h3]
      exact ⟨rfl, rfl, rfl⟩

theorem derive_child_metadata_witness :
    (PrivBIP32Node.ckd prims0 nPriv0 0
      = Except.ok ⟨1, List.replicate 32 0, 1, List.replicate 4 0, 0⟩) ∧
    ((1 : Nat) = nPriv0.depth + 1 ∧
     List.replicate 4 0
       = (hash160 prims0 (pointToBytes (PrivBIP32Node.pubkey nPriv0))).take 4 ∧
     (0 : Nat) = 0) := by
  have h := (derive_child_metadata prims0 nPriv0 nPub0 0).1
    ⟨1, List.replicate 32 0, 1, List.replicate 4 0, 0⟩ (by decide)
  exact ⟨by decide, h.1.symm ▸ ⟨rfl, h.2.1, rfl⟩⟩

/-- C4: for in-range fields, serialize_binary is defined (no overflow), is
exactly 78 bytes with layout version(4) ++ depth(1) ++ fingerprint(4) ++
index-be(4) ++ chaincode(32) ++ keydata(33), where the private keydata is
0x00 ++ be256(scalar) and the public keydata the 33-byte compressed point,
and the two variants use distinct fixed 4-byte version constants. -/
theorem serialize_binary_layout (n : PrivBIP32Node) (m : PubBIP32Node)
    (hn : PrivBIP32Node.Wf n) (hm : PubBIP32Node.Wf m) :
    (∃ l, PrivBIP32Node.bytes n = Except.ok l ∧ l.length = 78 ∧
      l = PrivBIP32Node.vbytes ++ beBytes 1 n.depth ++ n.parent_fingerprint
        ++ beBytes 4 n.index ++ n.chaincode ++ (0 :: beBytes 32 n.keydata) ∧
      (0 :: beBytes 32 n.keydata).length = 33) ∧
    (∃ l, PubBIP32Node.bytes m = Except.ok l ∧ l.length = 78 ∧
      l = PubBIP32Node.vbytes ++ beBytes 1 m.depth ++ m.parent_fingerprint
        ++ beBytes 4 m.index ++ m.chaincode ++ pointToBytes m.keydata ∧
      (pointToBytes m.keydata).length = 33) ∧
    PrivBIP32Node.vbytes ≠ PubBIP32Node.vbytes ∧
    PrivBIP32Node.vbytes.length = 4 ∧ PubBIP32Node.vbytes.length = 4 := by
  obtain ⟨-, -, hccl, -, hfpl, -, -⟩ := id hn
  obtain ⟨-, -, hccl2, -, hfpl2, -⟩ := id hm
  have hpriv : ∃ l, PrivBIP32Node.bytes n = Except.ok l ∧ l.length = 78 ∧
      l = PrivBIP32Node.vbytes ++ beBytes 1 n.depth ++ n.parent_fingerprint
        ++ beBytes 4 n.index ++ n.chaincode ++ (0 :: beBytes 32 n.keydata) ∧
      (0 :: beBytes 32 n.keydata).length = 33 := by
    refine ⟨_, priv_bytes_eq n hn, ?_, rfl, by simp [beBytes_length]⟩
    simp [beBytes_length, hccl, hfpl, PrivBIP32Node.vbytes]
  have hpub : ∃ l, PubBIP32Node.bytes m = Except.ok l ∧ l.length = 78 ∧
      l = PubBIP32Node.vbytes ++ beBytes 1 m.depth ++ m.parent_fingerprint
        ++ beBytes 4 m.index ++ m.chaincode ++ pointToBytes m.keydata ∧
      (pointToBytes m.keydata).length = 33 := by
    refine ⟨_, pub_bytes_eq m hm, ?_, rfl, by simp [pointToBytes, beBytes_length]⟩
    simp [pointToBytes, beBytes_length, hccl2, hfpl2, PubBIP32Node.vbytes]
  exact ⟨hpriv, hpub, by decide, by decide, by decide⟩

theorem serialize_binary_layout_witness :
    (∃ l, PrivBIP32Node.bytes nPriv0 = Except.ok l ∧ l.length = 78 ∧
      l = PrivBIP32Node.vbytes ++ beBytes 1 nPriv0.depth
        ++ nPriv0.parent_fingerprint ++ beBytes 4 nPriv0.index
        ++ nPriv0.chaincode ++ (0 :: beBytes 32 nPriv0.keydata) ∧
      (0 :: beBytes 32 nPriv0.keydata).length = 33) ∧
    (∃ l, PubBIP32Node.bytes nPub0 = Except.ok l ∧ l.length = 78 ∧
      l = PubBIP32Node.vbytes ++ beBytes 1 nPub0.depth
        ++ nPub0.parent_fingerprint ++ beBytes 4 nPub0.index
        ++ nPub0.chaincode ++ pointToBytes nPub0.keydata ∧
      (pointToBytes nPub0.keydata).length = 33) ∧
    PrivBIP32Node.vbytes ≠ PubBIP32Node.vbytes ∧
    PrivBIP32Node.vbytes.length = 4 ∧ PubBIP32Node.vbytes.length = 4 :=
  serialize_binary_layout nPriv0 nPub0 (by decide) (by decide)

/-- Scalar multiples of G in the order-N group absorb reduction mod N and
turn modular addition of scalars into point addition. -/
theorem ptMul_G_mod_add (a b : Nat) :
    ptMul G ((a + b) % secpN) = ptMul G a + ptMul G b := by
  unfold ptMul G
  simp only [nsmul_eq_mul, mul_one]
  rw [ZMod.natCast_mod]
  push_cast
  ring

/-- Non-hardened private CKD written out as an ok value. -/
theorem xprivkey_ckd_nonhardened (p : Primitives) (x : XPrivKey) (i : Nat)
    (h : i < 0x80000000) :
    XPrivKey.ckd p x i = Except.ok
      ⟨(beToNat ((p.hmacSha512 x.chaincode
          (pointToBytes x.pubkey ++ beBytes 4 i)).take 32) + x.keydata)
          % secpN,
        lastN 32 (p.hmacSha512 x.chaincode
          (pointToBytes x.pubkey ++ beBytes 4 i))⟩ := by
  have hi4 : i < 256 ^ 4 := by
    have h2 : (256 : Nat) ^ 4 = 2 ^ 32 := by norm_num
    omega
  unfold XPrivKey.ckd
  rw [if_neg (by omega : ¬ i ≥ 0x80000000), except_pure_bind,
    toBytesBE_ok _ 4 hi4]
  rfl

/-- Non-hardened public CKD written out as an ok value. -/
theorem xpubkey_ckd_ok (p : Primitives) (x : XPubKey) (i : Nat)
    (h : i < 0x80000000) :
    XPubKey.ckd p x i = Except.ok
      ⟨ptMul G (beToNat ((p.hmacSha512 x.chaincode
          (pointToBytes x.pubkey ++ beBytes 4 i)).take 32)) + x.keydata,
        lastN 32 (p.hmacSha512 x.chaincode
          (pointToBytes x.pubkey ++ beBytes 4 i))⟩ := by
  have hi4 : i < 256 ^ 4 := by
    have h2 : (256 : Nat) ^ 4 = 2 ^ 32 := by norm_num
    omega
  unfold XPubKey.ckd
  rw [if_neg (by omega : ¬ ¬ i < 0x80000000), toBytesBE_ok _ 4 hi4]
  rfl

/-- C6: for non-hardened indices, projecting a private node to public after
deriving equals deriving from the projected public node: the child point,
chaincode, depth, parent fingerprint and index all agree. -/
theorem pub_priv_ckd_commute (p : Primitives) (n : PrivBIP32Node) (i : Nat)
    (h : i < 0x80000000) :
    Except.map PrivBIP32Node.toPub (PrivBIP32Node.ckd p n i)
      = PubBIP32Node.ckd p (PrivBIP32Node.toPub n) i := by
  unfold PrivBIP32Node.ckd PubBIP32Node.ckd
  rw [xprivkey_ckd_nonhardened p n.toXPriv i h, except_bind_ok,
    xpubkey_ckd_ok p (PrivBIP32Node.toPub n).toXPub i h, except_bind_ok]
  simp only [PrivBIP32Node.toPub, PrivBIP32Node.toXPriv, PubBIP32Node.toXPub,
    XPrivKey.pubkey, XPubKey.pubkey, PrivBIP32Node.pubkey,
    PrivBIP32Node.keyid, PubBIP32Node.keyid, except_pure_eq_ok, Except.map]
  rw [ptMul_G_mod_add]

theorem pub_priv_ckd_commute_witness :
    Except.map PrivBIP32Node.toPub (PrivBIP32Node.ckd prims0 nPriv0 5)
      = PubBIP32Node.ckd prims0 (PrivBIP32Node.toPub nPriv0) 5 :=
  pub_priv_ckd_commute prims0 nPriv0 5 (by decide)

/-- C9 counterexample: a node at depth 255 derives a child successfully:
no error is raised at the ckd call and the recorded depth is 256, not a
saturated 255. -/
theorem depth_255_derives_256 :
    PrivBIP32Node.ckd prims0 nDepth255 0
      = Except.ok ⟨1, List.replicate 32 0, 256, List.replicate 4 0, 0⟩ ∧
    (256 : Nat) ≠ 255 := by
  exact ⟨by decide, by decide⟩

/-- C9 (amended): deriving from depth 255 succeeds with recorded depth 256
(Python integers do not wrap, so the depth byte is never reduced mod 256);
the overflow surfaces only later, when serializing the child, because 256
does not fit the single depth byte (to_bytes raises OverflowError). -/
theorem depth_overflow_behavior (p : Primitives) (n : PrivBIP32Node)
    (m : PubBIP32Node) (i : Nat) (hn : n.depth = 255) (hm : m.depth = 255) :
    (∀ c, PrivBIP32Node.ckd p n i = Except.ok c →
      c.depth = 256 ∧ PrivBIP32Node.bytes c = Except.error Err.overflowError) ∧
    (∀ c, PubBIP32Node.ckd p m i = Except.ok c →
      c.depth = 256 ∧ PubBIP32Node.bytes c = Except.error Err.overflowError) := by
  have hov : toBytesBE 256 1 = Except.error Err.overflowError := by decide
  constructor
  · intro c hc
    have hdep := ((derive_child_metadata p n m i).1 c hc).1
    rw [hn] at hdep
    refine ⟨hdep, ?_⟩
    unfold PrivBIP32Node.bytes
    rw [hdep, hov, except_bind_error]
  · intro c hc
    have hdep := ((derive_child_metadata p n m i).2 c hc).1
    rw [hm] at hdep
    refine ⟨hdep, ?_⟩
    unfold PubBIP32Node.bytes
    rw [hdep, hov, except_bind_error]

theorem depth_overflow_behavior_witness :
    ((256 : Nat) = 256 ∧ PrivBIP32Node.bytes
        ⟨1, List.replicate 32 0, 256, List.replicate 4 0, 0⟩
      = Except.error Err.overflowError) := by
  have h := (depth_overflow_behavior prims0 nDepth255 mDepth255 0
    (by decide) (by decide)).1
    ⟨1, List.replicate 32 0, 256, List.replicate 4 0, 0⟩ (by decide)
  exact ⟨rfl, h.2⟩

/-- C10: constructing an XPubKey with the chaincode omitted draws the
chaincode from the urandom oracle (32 bytes when the oracle honours its
contract), and the result is a function of the oracle, not of the key
alone: different oracles give different keys. -/
theorem xpubkey_make_random_chaincode (urandom : Nat → Bytes) (k : Point)
    (h : (urandom 32).length = 32) :
    (XPubKey.make urandom k none).chaincode = urandom 32 ∧
    (XPubKey.make urandom k none).chaincode.length = 32 ∧
    ∃ u₁ u₂ : Nat → Bytes, XPubKey.make u₁ k none ≠ XPubKey.make u₂ k none := by
  refine ⟨rfl, h, fun _ => [], fun _ => [0], ?_⟩
  intro hcon
  have h2 : ([] : Bytes) = [0] := congrArg XPubKey.chaincode hcon
  exact List.noConfusion h2

theorem xpubkey_make_random_chaincode_witness :
    (XPubKey.make (fun n => List.replicate n 0) 1 none).chaincode
        = List.replicate 32 0 ∧
    (XPubKey.make (fun n => List.replicate n 0) 1 none).chaincode.length = 32 ∧
    ∃ u₁ u₂ : Nat → Bytes,
      XPubKey.make u₁ 1 none ≠ XPubKey.make u₂ 1 none :=
  xpubkey_make_random_chaincode (fun n => List.replicate n 0) 1 (by decide)

/-- C5: round trip through the textual encoding: for any well-formed node
and well-formed hash primitives, xprv (resp. xpub) succeeds and
node_from_str maps the produced string back to the identical node — hence
re-serializing yields byte-identical output. -/
theorem text_roundtrip (p : Primitives) (hp : p.Wf) (n : PrivBIP32Node)
    (m : PubBIP32Node) (hn : PrivBIP32Node.Wf n) (hm : PubBIP32Node.Wf m) :
    (∃ s, PrivBIP32Node.xprv p n = Except.ok s ∧
      node_from_str p s = Except.ok (BIP32Node.priv n)) ∧
    (∃ s, PubBIP32Node.xpub p m = Except.ok s ∧
      node_from_str p s = Except.ok (BIP32Node.pub m)) := by
  constructor
  · obtain ⟨hd, hidx, hccl, hccb, hfpl, hfpb, hk⟩ := id hn
    set X := PrivBIP32Node.vbytes ++ beBytes 1 n.depth ++ n.parent_fingerprint
      ++ beBytes 4 n.index ++ n.chaincode ++ (0 :: beBytes 32 n.keydata)
      with hX
    have hXbytes : IsBytes X := by
      rw [hX]
      refine isBytes_append _ _ (isBytes_append _ _ (isBytes_append _ _
        (isBytes_append _ _ (isBytes_append _ _ ?_ ?_) ?_) ?_) ?_) ?_
      · decide
      · exact beBytes_isBytes 1 _
      · exact hfpb
      · exact beBytes_isBytes 4 _
      · exact hccb
      · exact isBytes_cons 0 _ (by omega) (beBytes_isBytes 32 _)
    have hxprv : PrivBIP32Node.xprv p n = Except.ok (b58enc p X true) := by
      unfold PrivBIP32Node.xprv
      rw [priv_bytes_eq n hn, except_bind_ok, ← hX]
      rfl
    refine ⟨b58enc p X true, hxprv, ?_⟩
    apply node_from_str_serialized_priv p _ n hn
    rw [← hX]
    refine b58dec_b58enc_check p X hXbytes ?_ ?_
    · intro y hy
      exact hp.sha256_bytes _ y (List.mem_of_mem_take hy)
    · rw [List.length_take, hp.sha256_len]
      decide
  · obtain ⟨hd, hidx, hccl, hccb, hfpl, hfpb⟩ := id hm
    set X := PubBIP32Node.vbytes ++ beBytes 1 m.depth ++ m.parent_fingerprint
      ++ beBytes 4 m.index ++ m.chaincode ++ pointToBytes m.keydata
      with hX
    have hXbytes : IsBytes X := by
      rw [hX]
      refine isBytes_append _ _ (isBytes_append _ _ (isBytes_append _ _
        (isBytes_append _ _ (isBytes_append _ _ ?_ ?_) ?_) ?_) ?_) ?_
      · decide
      · exact beBytes_isBytes 1 _
      · exact hfpb
      · exact beBytes_isBytes 4 _
      · exact hccb
      · exact isBytes_cons 2 _ (by omega) (beBytes_isBytes 32 _)
    have hxpub : PubBIP32Node.xpub p m = Except.ok (b58enc p X true) := by
      unfold PubBIP32Node.xpub
      rw [pub_bytes_eq m hm, except_bind_ok, ← hX]
      rfl
    refine ⟨b58enc p X true, hxpub, ?_⟩
    apply node_from_str_serialized_pub p _ m hm
    rw [← hX]
    refine b58dec_b58enc_check p X hXbytes ?_ ?_
    · intro y hy
      exact hp.sha256_bytes _ y (List.mem_of_mem_take hy)
    · rw [List.length_take, hp.sha256_len]
      decide

theorem text_roundtrip_witness :
    (∃ s, PrivBIP32Node.xprv prims0 nPriv0 = Except.ok s ∧
      node_from_str prims0 s = Except.ok (BIP32Node.priv nPriv0)) ∧
    (∃ s, PubBIP32Node.xpub prims0 nPub0 = Except.ok s ∧
      node_from_str prims0 s = Except.ok (BIP32Node.pub nPub0)) :=
  text_roundtrip prims0 prims0_wf nPriv0 nPub0 (by decide) (by decide)

/-- C7: derive on the empty path returns the node unchanged; a nonempty
path is split on '/' and folded left to right through ckd, each digits
segment mapping to its value and a trailing H adding 0x80000000 — so
"44H/0H/0H/0/0" chains ckd at indices 0x8000002C, 0x80000000, 0x80000000,
0, 0; the malformed segment "1H2" fails with the int-parse ValueError (the
InvalidPath kind of the spec's error taxonomy). -/
theorem derive_path_spec (p : Primitives) (x : XPubKey) (n : PrivBIP32Node) :
    XPubKey.derive p x [] = Except.ok x ∧
    PrivBIP32Node.derive p n [] = Except.ok n ∧
    PrivBIP32Node.derive p n ("44H/0H/0H/0/0".toList)
      = (do
          let a ← PrivBIP32Node.ckd p n 0x8000002C
          let b ← PrivBIP32Node.ckd p a 0x80000000
          let c ← PrivBIP32Node.ckd p b 0x80000000
          let d ← PrivBIP32Node.ckd p c 0
          let e ← PrivBIP32Node.ckd p d 0
          pure e) ∧
    PrivBIP32Node.derive p n ("1H2".toList)
      = Except.error (Err.valueError "invalid literal for int") ∧
    XPubKey.derive p x ("1H2".toList)
      = Except.error (Err.valueError "invalid literal for int") := by
  refine ⟨rfl, rfl, ?_, ?_, ?_⟩ <;> rfl

/-- C8 counterexample: node_from_str performs no payload-length check: a
79-byte payload carrying the xprv version prefix decodes without error
into a node, its fields sliced from the misaligned positions. -/
theorem node_from_str_no_length_check :
    payload79.length = 79 ∧ (79 : Nat) ≠ 78 ∧
    node_from_str prims0 (b58enc prims0 payload79 true)
      = Except.ok (BIP32Node.priv ⟨0, List.replicate 32 0, 0,
          List.replicate 4 0, 0⟩) :=
  ⟨by decide, by decide, by rfl⟩

/-- C8 (amended): from_text base58check-decodes and selects the variant on
the version field, rejecting unknown versions with a ValueError, rejecting
a nonzero private key-marker byte with an AssertionError, and propagating
the point-deserializer's error for the public variant; no payload-length
verification exists anywhere on the path. -/
theorem node_from_str_behavior (q : Primitives) (s : List Char) (b : Bytes)
    (hq : b58dec q s true = Except.ok b) (hlen5 : 5 ≤ b.length) :
    (b.take 4 ≠ PrivBIP32Node.vbytes → b.take 4 ≠ PubBIP32Node.vbytes →
      node_from_str q s
        = Except.error (Err.valueError "bad BIP32 node encoding")) ∧
    (∀ k0, b.take 4 = PrivBIP32Node.vbytes →
      (lastN 33 b).get? 0 = some k0 → k0 ≠ 0 →
      node_from_str q s = Except.error (Err.assertionError
        "Kbytes starts with a nonzero byte")) ∧
    (∀ e, b.take 4 ≠ PrivBIP32Node.vbytes → b.take 4 = PubBIP32Node.vbytes →
      pointFromBytes (lastN 33 b) = Except.error e →
      node_from_str q s = Except.error e) := by
  cases hg : b.get? 4 with
  | none =>
    exfalso
    have := List.get?_eq_none.mp hg
    omega
  | some d =>
    refine ⟨?_, ?_, ?_⟩
    · intro h1 h2
      simp only [node_from_str, hq, except_bind_ok, hg, except_pure_bind,
        if_neg h1, if_neg h2]
    · intro k0 h1 hk0 hk0ne
      simp only [node_from_str, hq, except_bind_ok, hg, except_pure_bind,
        if_pos h1, hk0, if_neg hk0ne]
    · intro e h1 h2 hpf
      simp only [node_from_str, hq, except_bind_ok, hg, except_pure_bind,
        if_neg h1, if_pos h2, hpf, except_bind_error]

theorem node_from_str_behavior_witness :
    node_from_str prims0 (b58enc prims0 (List.replicate 78 9) true)
      = Except.error (Err.valueError "bad BIP32 node encoding") :=
  (node_from_str_behavior prims0 (b58enc prims0 (List.replicate 78 9) true)
    (List.replicate 78 9) (by rfl) (by decide)).1 (by decide) (by decide)

end Sorzun
